import Mathlib

/-!
Shallow embedding of the quark crate: the traits BitSize (src/bit_size.rs),
BitMask (src/bit_mask.rs), BitIndex (src/bit_index.rs) and Signs
(src/signs.rs), which the crate implements via one macro arm per trait,
instantiated at every fixed-width integer type (u8..u128, usize and the
signed counterparts).

Representation: a value of a w-bit integer type is represented by its bit
pattern, a natural number below 2 ^ w, where w is the BIT_SIZE constant of
the type (8, 16, 32, 64, 128, or the pointer width). Signed values are the
same patterns read as twos-complement integers; reinterpretation casts
(`as iN` / `as uN`) become toSigned / toPattern below. The definitions are
uniform in w, so every instantiation of the macros is covered at once.

The modelled target is a 64-bit platform: usize is 64 bits wide (so the
span arithmetic in BitIndex::bits overflows at 2 ^ 64), and the
`index as _` cast of a usize shift amount to the u32 argument of
checked_shr truncates to 32 bits. On a 32-bit target the usize bound is
2 ^ 32 and that cast is lossless; none of the results below about in-range
inputs depend on the choice.

Panics (usize add or sub overflow in the range-bound arithmetic of
BitIndex::bits, which aborts under overflow checks) are modelled by
Option: a none result of chkAdd / chkSub / maskOf / shiftOf / ubits /
sbits means the Rust code panics there. All other operations are total.
-/

namespace Quark

/-- BIT_SIZE of usize and isize on the modelled (64-bit) target. -/
def USIZE_BITS : Nat := 64

/-- Truncating cast of a usize shift amount to u32, as in the
`self.checked_shr(index as _)` calls of src/bit_index.rs: checked_shr
takes a u32, so the index is reduced modulo 2 ^ 32 on a 64-bit target. -/
def castShift (s : Nat) : Nat := s % 2 ^ 32

/-- Reinterpret a w-bit pattern as a twos-complement signed integer: the
Rust cast `as iN` applied to an unsigned value, and the numeric value of
a signed variable holding this pattern. -/
def toSigned (w v : Nat) : Int :=
  if v < 2 ^ (w - 1) then (v : Int) else (v : Int) - 2 ^ w

/-- Bit pattern of an integer in a w-bit type: the Rust cast `as uN`,
i.e. the value modulo 2 ^ w. -/
def toPattern (w : Nat) (x : Int) : Nat := (x % (2 : Int) ^ w).toNat

/-- Arithmetic (sign-propagating) right shift on a w-bit pattern: Rust
`>>` on a signed value, which is flooring division by 2 ^ s. -/
def ashr (w v s : Nat) : Nat :=
  toPattern w (Int.fdiv (toSigned w v) ((2 : Int) ^ s))

/-- BitMask::mask from src/bit_mask.rs lines 36-45. high_bit is the
pattern 2 ^ (w - 1) read as a signed value (the `as $s_ty` cast and the
signed `>>` are inside ashr); the final `as Self` cast keeps the pattern,
so the one definition covers the unsigned and the signed macro arms,
whose expansions compute the same bit pattern. -/
def mask (w size : Nat) : Nat :=
  if size = 0 then 0
  else if size < w then ashr w (2 ^ (w - 1)) size >>> (w - size)
  else ashr w (2 ^ (w - 1)) (w - 1)

/-- BitMask::mask_to from src/bit_mask.rs lines 47-49: self & mask(size).
Bitwise and acts on patterns, so again one definition covers both arms. -/
def mask_to (w v size : Nat) : Nat := v &&& mask w size

/-- BitIndex::bit (src/bit_index.rs lines 40-45) at an unsigned type:
checked_shr is a logical shift returning None when the (truncated) index
reaches the width, and the fallback `if *self < 0 { 1 } else { 0 }` is
always 0 because an unsigned value is never below zero (the crate allows
the unused comparison). -/
def ubit (w v idx : Nat) : Bool :=
  (if castShift idx < w then v >>> castShift idx else 0) &&& 1 == 1

/-- BitIndex::bit at a signed type: checked_shr is an arithmetic shift,
and the fallback is 1 when the value is negative. -/
def sbit (w v idx : Nat) : Bool :=
  (if castShift idx < w then ashr w v (castShift idx)
   else if toSigned w v < 0 then 1 else 0) &&& 1 == 1

/-- The two ends of a std::ops::RangeBounds value over usize, as matched
by BitIndex::bits via start_bound and end_bound. -/
inductive Bound where
  | incl : Nat → Bound
  | excl : Nat → Bound
  | unb : Bound
deriving DecidableEq

/-- usize subtraction; none models the overflow panic. -/
def chkSub (a b : Nat) : Option Nat :=
  if b ≤ a then some (a - b) else none

/-- usize addition; none models the overflow panic at 2 ^ 64. -/
def chkAdd (a b : Nat) : Option Nat :=
  if a + b < 2 ^ USIZE_BITS then some (a + b) else none

/-- The `mask` variable of BitIndex::bits (src/bit_index.rs lines 48-68):
the nine-arm match on (start_bound, end_bound). The inner Option is the
Option of the source (none = no masking, for an unbounded end); the outer
Option models the usize arithmetic panics. -/
def maskOf : Bound → Bound → Option (Option Nat)
  | Bound.excl se, Bound.excl ee => ((chkSub ee se).bind fun t => chkSub t 1).map some
  | Bound.excl se, Bound.incl ei => (chkSub ei se).map some
  | Bound.excl _, Bound.unb => some none
  | Bound.incl si, Bound.excl ee => (chkSub ee si).map some
  | Bound.incl si, Bound.incl ei => ((chkAdd ei 1).bind fun t => chkSub t si).map some
  | Bound.incl _, Bound.unb => some none
  | Bound.unb, Bound.excl ee => some (some ee)
  | Bound.unb, Bound.incl ei => (chkAdd ei 1).map some
  | Bound.unb, Bound.unb => some none

/-- The `shift` variable of BitIndex::bits (src/bit_index.rs lines 70-74).
In the source it is an Option that is Some in all three arms; the Option
here models the panic of `*e + 1` instead. -/
def shiftOf : Bound → Option Nat
  | Bound.excl e => chkAdd e 1
  | Bound.incl i => some i
  | Bound.unb => some 0

/-- The shift step of BitIndex::bits at an unsigned type:
`self.checked_shr(s as _).unwrap_or_else(...)` with the fallback constant
0 (the `*self < 0` comparison is unused-false for unsigned). -/
def ushr_sat (w v s : Nat) : Nat :=
  if castShift s < w then v >>> castShift s else 0

/-- The shift step of BitIndex::bits at a signed type: arithmetic
checked_shr with fallback `(0 as Self).wrapping_sub(1)` (pattern of -1)
for negative values and 0 otherwise. -/
def sshr_sat (w v s : Nat) : Nat :=
  if castShift s < w then ashr w v (castShift s)
  else if toSigned w v < 0 then 2 ^ w - 1 else 0

/-- BitIndex::bits (src/bit_index.rs lines 47-97) at an unsigned type.
The source computes `mask`, then `shift`, then matches on the pair; shift
is structurally Some in the source, so its None match arms (lines 94-95)
are unreachable and the reachable arms are the two below. A none result
models the usize arithmetic panic inside the mask or shift computation. -/
def ubits (w v : Nat) (lo hi : Bound) : Option Nat :=
  match maskOf lo hi, shiftOf lo with
  | some (some m), some s => some (mask_to w (ushr_sat w v s) m)
  | some none, some s => some (ushr_sat w v s)
  | _, _ => none

/-- BitIndex::bits at a signed type; identical to ubits except for the
shift semantics. -/
def sbits (w v : Nat) (lo hi : Bound) : Option Nat :=
  match maskOf lo hi, shiftOf lo with
  | some (some m), some s => some (mask_to w (sshr_sat w v s) m)
  | some none, some s => some (sshr_sat w v s)
  | _, _ => none

/-- Signs::sign_bit (src/signs.rs lines 30-32 and 45-47): `*self < 0` for
signed, `(*self as iN) < 0` for unsigned; on patterns both are the sign
of the twos-complement reading. -/
def sign_bit (w v : Nat) : Bool := decide (toSigned w v < 0)

/-- Signs::sign_extend (src/signs.rs lines 34-40 and 49-55): 0 when
bits >= BIT_SIZE, otherwise `self << bits >> bits`, the left shift
wrapping the pattern at w bits and the right shift arithmetic (the
unsigned arm reinterprets as signed around the right shift). Both macro
arms compute the same pattern. -/
def sign_extend (w v bits : Nat) : Nat :=
  if bits ≥ w then 0 else ashr w ((v <<< bits) % 2 ^ w) bits

/-- Modelled from the spec wording of claim C2 only (not from the source,
which shifts by `bits`): logically shift left by (width - bits), then
arithmetically shift right by (width - bits), with the same
bits >= width boundary. Used solely to compare the spec formula with
sign_extend. -/
def specSignExtend (w v bits : Nat) : Nat :=
  if bits ≥ w then 0 else ashr w ((v <<< (w - bits)) % 2 ^ w) (w - bits)

/-! Sanity checks against the unit tests of the crate. The signed byte
-90 has pattern 166; the signed results -6, -3, -1 have patterns 250,
253, 255. -/

example : ubit 8 90 2 = false ∧ ubit 8 90 3 = true ∧ ubit 8 90 4 = true ∧
    ubit 8 90 5 = false := by decide

example : ubits 8 90 Bound.unb Bound.unb = some 90 := by decide
example : ubits 8 90 Bound.unb (Bound.excl 4) = some 10 := by decide
example : ubits 8 90 Bound.unb (Bound.incl 4) = some 26 := by decide
example : ubits 8 90 (Bound.incl 4) Bound.unb = some 5 := by decide
example : ubits 8 90 (Bound.incl 4) (Bound.excl 8) = some 5 := by decide
example : ubits 8 90 (Bound.incl 4) (Bound.incl 7) = some 5 := by decide
example : ubits 8 90 (Bound.excl 4) Bound.unb = some 2 := by decide
example : ubits 8 90 (Bound.excl 4) (Bound.excl 8) = some 2 := by decide
example : ubits 8 90 (Bound.excl 0) (Bound.incl 4) = some 13 := by decide
example : ubits 8 90 Bound.unb (Bound.excl 16) = some 90 := by decide
example : ubits 8 90 (Bound.incl 8) Bound.unb = some 0 := by decide
example : ubits 8 90 (Bound.incl 8) (Bound.excl 16) = some 0 := by decide

example : sbit 8 166 2 = true ∧ sbit 8 166 3 = false ∧ sbit 8 166 4 = false ∧
    sbit 8 166 5 = true := by decide
example : sbit 8 166 8 = true ∧ sbit 8 166 9 = true := by decide

example : sbits 8 166 Bound.unb Bound.unb = some 166 := by decide
example : sbits 8 166 (Bound.incl 2) (Bound.excl 6) = some 9 := by decide
example : sbits 8 166 Bound.unb (Bound.excl 5) = some 6 := by decide
example : sbits 8 166 Bound.unb (Bound.incl 5) = some 38 := by decide
example : sbits 8 166 (Bound.incl 4) Bound.unb = some 250 := by decide
example : sbits 8 166 (Bound.incl 4) (Bound.excl 8) = some 10 := by decide
example : sbits 8 166 (Bound.excl 4) Bound.unb = some 253 := by decide
example : sbits 8 166 (Bound.incl 8) Bound.unb = some 255 := by decide
example : sbits 8 166 (Bound.incl 8) (Bound.excl 16) = some 255 := by decide
example : sbits 8 166 (Bound.excl 8) (Bound.incl 16) = some 255 := by decide

example : mask 8 0 = 0 ∧ mask 8 7 = 0x7f ∧ mask 8 4 = 0x0f ∧
    mask 8 3 = 0x07 ∧ mask 8 10 = 0xff := by decide
example : mask_to 8 145 0 = 0 ∧ mask_to 8 255 4 = 15 ∧
    mask_to 8 204 10 = 204 := by decide
example : mask 32 4 = 0xf := by decide

example : sign_bit 32 0x8000 = false ∧ sign_bit 32 0x80008000 = true := by
  decide
example : sign_extend 32 0x8000 15 = 0x8000 := by decide
example : sign_extend 32 0x8000 16 = 0xffff8000 := by decide
example : sign_extend 32 0x8000 17 = 0 := by decide
example : sign_extend 32 0x80008000 15 = 0x8000 := by decide

/-- Pattern of the i32 value -65536. -/
def negSixtyFiveKPat : Nat := 0xffff0000

example : sign_bit 32 negSixtyFiveKPat = true := by decide
example : sign_extend 32 negSixtyFiveKPat 15 = negSixtyFiveKPat := by decide
example : sign_extend 32 negSixtyFiveKPat 16 = 0 := by decide
example : sign_extend 32 0x7fff0000 1 = negSixtyFiveKPat := by decide
example : sign_extend 32 0x7fff0000 15 = negSixtyFiveKPat := by decide
example : sign_extend 32 0x7fff0000 16 = 0 := by decide

/-! Basic facts about the reinterpretation casts. -/

lemma two_pow_int (w : Nat) : ((2 : Int) ^ w) = ((2 ^ w : Nat) : Int) := by
  push_cast
  ring

lemma toPattern_lt (w : Nat) (x : Int) : toPattern w x < 2 ^ w := by
  have h2 : (0 : Int) < (2 : Int) ^ w := by positivity
  have h1 := Int.emod_nonneg x (ne_of_gt h2)
  have h3 := Int.emod_lt_of_pos x h2
  unfold toPattern
  rw [two_pow_int] at h1 h3 ⊢
  omega

lemma ashr_lt (w v s : Nat) : ashr w v s < 2 ^ w := by
  unfold ashr
  exact toPattern_lt _ _

lemma toPattern_natCast (w v : Nat) (h : v < 2 ^ w) : toPattern w (v : Int) = v := by
  unfold toPattern
  rw [two_pow_int, Int.emod_eq_of_lt (by positivity) (by exact_mod_cast h)]
  simp

lemma emod_two_pow_of_neg (w : Nat) (x : Int) (h1 : -(2 : Int) ^ w ≤ x)
    (h2 : x < 0) : x % (2 : Int) ^ w = x + 2 ^ w := by
  have e : (x + 1 * (2 : Int) ^ w) % (2 : Int) ^ w = x % (2 : Int) ^ w :=
    Int.add_mul_emod_self
  rw [one_mul] at e
  rw [← e]
  exact Int.emod_eq_of_lt (by linarith) (by linarith)

/-- Closed form of the arithmetic right shift on an in-range pattern: the
logical shift, with the vacated top bits filled from the sign bit. -/
lemma ashr_eq (w v s : Nat) (hv : v < 2 ^ w) (hs : s ≤ w) :
    ashr w v s = v >>> s + (if 2 ^ (w - 1) ≤ v then 2 ^ w - 2 ^ (w - s) else 0) := by
  unfold ashr toSigned
  by_cases hneg : v < 2 ^ (w - 1)
  · rw [if_pos hneg, if_neg (by omega)]
    rw [Int.fdiv_eq_ediv _ (by positivity), two_pow_int, ← Int.ofNat_ediv]
    rw [toPattern_natCast w _ (lt_of_le_of_lt (Nat.div_le_self _ _) hv)]
    rw [Nat.shiftRight_eq_div_pow]
    omega
  · rw [if_neg hneg, if_pos (by omega)]
    set q := v / 2 ^ s with hq
    set r := v % 2 ^ s with hr
    have hpow : (2 : Nat) ^ w = 2 ^ (w - s) * 2 ^ s := by
      rw [← pow_add]
      congr 1
      omega
    have hvqr : 2 ^ s * q + r = v := Nat.div_add_mod v (2 ^ s)
    have hrlt : r < 2 ^ s := Nat.mod_lt v (by positivity)
    have hqlt : q < 2 ^ (w - s) := by
      rw [hq]
      rw [Nat.div_lt_iff_lt_mul (by positivity)]
      rw [hpow] at hv
      exact hv
    have hfd : Int.fdiv ((v : Int) - 2 ^ w) ((2 : Int) ^ s)
        = (q : Int) - 2 ^ (w - s) := by
      rw [Int.fdiv_eq_ediv _ (by positivity)]
      have hrw : (v : Int) - 2 ^ w
          = (r : Int) + ((q : Int) - 2 ^ (w - s)) * 2 ^ s := by
        have h1 : ((2 : Nat) ^ w : Int) = ((2 ^ (w - s) * 2 ^ s : Nat) : Int) := by
          exact_mod_cast congrArg (Nat.cast (R := Int)) hpow
        have h2 : ((2 ^ s * q + r : Nat) : Int) = ((v : Nat) : Int) := by
          exact_mod_cast congrArg (Nat.cast (R := Int)) hvqr
        push_cast at h1 h2
        rw [two_pow_int]
        push_cast
        linarith
      rw [hrw, Int.add_mul_ediv_right _ _ (by positivity)]
      rw [Int.ediv_eq_zero_of_lt (by positivity) (by exact_mod_cast hrlt)]
      ring
    rw [hfd]
    unfold toPattern
    have hneg1 : ((q : Int) - 2 ^ (w - s)) < 0 := by
      have : (q : Int) < 2 ^ (w - s) := by
        rw [two_pow_int]
        exact_mod_cast hqlt
      linarith
    have hge : -(2 : Int) ^ w ≤ (q : Int) - 2 ^ (w - s) := by
      have h1 : ((2 : Int) ^ (w - s)) ≤ 2 ^ w := by
        rw [two_pow_int, two_pow_int]
        exact_mod_cast Nat.pow_le_pow_right (by omega) (by omega)
      have h0 : (0 : Int) ≤ (q : Int) := by positivity
      linarith
    rw [emod_two_pow_of_neg w _ hge hneg1]
    rw [Nat.shiftRight_eq_div_pow, ← hq]
    have hle : (2 : Nat) ^ (w - s) ≤ 2 ^ w := Nat.pow_le_pow_right (by omega) (by omega)
    have e1 : (q : Int) - 2 ^ (w - s) + 2 ^ w
        = ((q + (2 ^ w - 2 ^ (w - s)) : Nat) : Int) := by
      push_cast [hle]
      ring
    rw [e1, Int.toNat_natCast]

lemma ashr_zero (w v : Nat) (hv : v < 2 ^ w) : ashr w v 0 = v := by
  rw [ashr_eq w v 0 hv (Nat.zero_le w)]
  simp

/-! Evaluation of BitMask::mask on the three branches of its match. -/

lemma two_pow_sub_two_pow (w k : Nat) (h : k ≤ w) :
    2 ^ w - 2 ^ k = (2 ^ (w - k) - 1) * 2 ^ k := by
  have hpw : (2 : Nat) ^ w = 2 ^ (w - k) * 2 ^ k := by
    rw [← pow_add]
    congr 1
    omega
  have h1 : (1 : Nat) ≤ 2 ^ (w - k) := Nat.one_le_two_pow
  obtain ⟨m, hm⟩ : ∃ m, (2 : Nat) ^ (w - k) = m + 1 := ⟨2 ^ (w - k) - 1, by omega⟩
  rw [hpw, hm]
  rw [Nat.succ_sub_one, Nat.add_mul, Nat.one_mul]
  omega

lemma mask_zero (w : Nat) : mask w 0 = 0 := by
  unfold mask
  rw [if_pos rfl]

lemma mask_eq_of_lt (w n : Nat) (h0 : 0 < n) (hn : n < w) :
    mask w n = 2 ^ n - 1 := by
  unfold mask
  rw [if_neg (by omega), if_pos hn]
  have hhb : (2 : Nat) ^ (w - 1) < 2 ^ w := Nat.pow_lt_pow_right (by omega) (by omega)
  rw [ashr_eq w _ n hhb (by omega), if_pos (le_refl _)]
  have e1 : (2 : Nat) ^ (w - 1) >>> n = 2 ^ (w - 1 - n) := by
    rw [Nat.shiftRight_eq_div_pow, Nat.pow_div (by omega) (by omega)]
  rw [e1, Nat.shiftRight_eq_div_pow]
  rw [two_pow_sub_two_pow w (w - n) (by omega)]
  have e2 : w - (w - n) = n := by omega
  rw [e2]
  rw [Nat.add_mul_div_right _ _ (Nat.two_pow_pos _)]
  rw [Nat.div_eq_of_lt (Nat.pow_lt_pow_right (by omega) (by omega))]
  omega

lemma mask_eq_of_ge (w n : Nat) (hw : 0 < w) (hn : w ≤ n) :
    mask w n = 2 ^ w - 1 := by
  unfold mask
  rw [if_neg (by omega), if_neg (by omega)]
  have hhb : (2 : Nat) ^ (w - 1) < 2 ^ w := Nat.pow_lt_pow_right (by omega) (by omega)
  rw [ashr_eq w _ (w - 1) hhb (by omega), if_pos (le_refl _)]
  have e1 : (2 : Nat) ^ (w - 1) >>> (w - 1) = 1 := by
    rw [Nat.shiftRight_eq_div_pow, Nat.div_self (by positivity)]
  have e2 : w - (w - 1) = 1 := by omega
  rw [e1, e2, pow_one]
  have h2 : 2 ≤ 2 ^ w := by
    calc (2 : Nat) = 2 ^ 1 := (pow_one 2).symm
    _ ≤ 2 ^ w := Nat.pow_le_pow_right (by omega) hw
  omega

lemma mask_lt (w n : Nat) : mask w n < 2 ^ w := by
  unfold mask
  split
  · positivity
  split
  · exact lt_of_le_of_lt
      (by rw [Nat.shiftRight_eq_div_pow]; exact Nat.div_le_self _ _) (ashr_lt _ _ _)
  · exact ashr_lt _ _ _

lemma mask_to_all_ones (w m : Nat) : mask_to w (2 ^ w - 1) m = mask w m := by
  unfold mask_to
  rw [Nat.and_comm, Nat.and_pow_two_sub_one_eq_mod]
  exact Nat.mod_eq_of_lt (mask_lt w m)

/-! Evaluation of Signs::sign_extend below the width boundary. -/

lemma sign_extend_eq (w v bits : Nat) (h : bits < w) :
    sign_extend w v bits =
      v % 2 ^ (w - bits) +
        (if 2 ^ (w - bits - 1) ≤ v % 2 ^ (w - bits) then 2 ^ w - 2 ^ (w - bits)
         else 0) := by
  unfold sign_extend
  rw [if_neg (by omega)]
  have hpow : (2 : Nat) ^ w = 2 ^ (w - bits) * 2 ^ bits := by
    rw [← pow_add]
    congr 1
    omega
  have hsl : (v <<< bits) % 2 ^ w = v % 2 ^ (w - bits) * 2 ^ bits := by
    rw [Nat.shiftLeft_eq, hpow, Nat.mul_mod_mul_right]
  have hlt : v % 2 ^ (w - bits) * 2 ^ bits < 2 ^ w := by
    rw [hpow]
    exact (Nat.mul_lt_mul_right (Nat.two_pow_pos _)).mpr
      (Nat.mod_lt v (Nat.two_pow_pos _))
  rw [hsl, ashr_eq w _ bits hlt (by omega)]
  have e1 : (v % 2 ^ (w - bits) * 2 ^ bits) >>> bits = v % 2 ^ (w - bits) := by
    rw [Nat.shiftRight_eq_div_pow, Nat.mul_div_assoc _ (dvd_refl _),
      Nat.div_self (Nat.two_pow_pos _), Nat.mul_one]
  have e2 : (2 ^ (w - 1) ≤ v % 2 ^ (w - bits) * 2 ^ bits)
      ↔ (2 ^ (w - bits - 1) ≤ v % 2 ^ (w - bits)) := by
    have hp1 : (2 : Nat) ^ (w - 1) = 2 ^ (w - bits - 1) * 2 ^ bits := by
      rw [← pow_add]
      congr 1
      omega
    rw [hp1]
    exact ⟨fun hh => Nat.le_of_mul_le_mul_right hh (by positivity),
      fun hh => Nat.mul_le_mul_right _ hh⟩
  rw [e1]
  simp only [e2]

lemma testBit_top_of_le (k x : Nat) (hk : 0 < k) (h1 : 2 ^ (k - 1) ≤ x)
    (h2 : x < 2 ^ k) : Nat.testBit x (k - 1) = true := by
  rw [Nat.testBit_to_div_mod]
  have hp : (2 : Nat) ^ k = 2 * 2 ^ (k - 1) := by
    rw [← pow_succ']
    congr 1
    omega
  have hd : x / 2 ^ (k - 1) = 1 := Nat.div_eq_of_lt_le (by omega) (by omega)
  rw [hd]
  decide

/-- Bit-level description of sign_extend below the boundary: positions
under w - bits are unchanged and every position from w - bits up to w
repeats bit (w - bits - 1), the bit the upper ones are filled from. -/
lemma sign_extend_testBit (w v bits i : Nat) (hb : bits < w) (hi : i < w) :
    (sign_extend w v bits).testBit i =
      if i < w - bits then v.testBit i else v.testBit (w - bits - 1) := by
  have hk1 : 1 ≤ w - bits := by omega
  rw [sign_extend_eq w v bits hb]
  by_cases hsign : 2 ^ (w - bits - 1) ≤ v % 2 ^ (w - bits)
  · rw [if_pos hsign]
    have h1 : 2 ^ w - 2 ^ (w - bits)
        = 2 ^ (w - bits) * (2 ^ (w - (w - bits)) - 1) := by
      rw [two_pow_sub_two_pow w (w - bits) (by omega), Nat.mul_comm]
    have e : v % 2 ^ (w - bits) + (2 ^ w - 2 ^ (w - bits))
        = 2 ^ (w - bits) * (2 ^ (w - (w - bits)) - 1) + v % 2 ^ (w - bits) := by
      omega
    rw [e, Nat.testBit_mul_pow_two_add _ (Nat.mod_lt v (Nat.two_pow_pos _)) i]
    by_cases hik : i < w - bits
    · rw [if_pos hik, if_pos hik]
      simp [Nat.testBit_mod_two_pow, hik]
    · rw [if_neg hik, if_neg hik]
      have h2 : (2 ^ (w - (w - bits)) - 1).testBit (i - (w - bits)) = true := by
        rw [Nat.testBit_two_pow_sub_one]
        simp only [decide_eq_true_eq]
        omega
      have h3 : v.testBit (w - bits - 1) = true := by
        have h4 : v.testBit (w - bits - 1)
            = (v % 2 ^ (w - bits)).testBit (w - bits - 1) := by
          simp [Nat.testBit_mod_two_pow]
          omega
        rw [h4]
        exact testBit_top_of_le (w - bits) _ (by omega) hsign
          (Nat.mod_lt v (Nat.two_pow_pos _))
      rw [h2, h3]
  · rw [if_neg hsign, Nat.add_zero]
    by_cases hik : i < w - bits
    · rw [if_pos hik]
      simp [Nat.testBit_mod_two_pow, hik]
    · rw [if_neg hik]
      have hlt : v % 2 ^ (w - bits) < 2 ^ i :=
        lt_of_lt_of_le (Nat.mod_lt v (Nat.two_pow_pos _))
          (Nat.pow_le_pow_right (by omega) (by omega))
      rw [Nat.testBit_lt_two_pow hlt]
      have h4 : v.testBit (w - bits - 1)
          = (v % 2 ^ (w - bits)).testBit (w - bits - 1) := by
        simp [Nat.testBit_mod_two_pow]
        omega
      rw [h4, Nat.testBit_lt_two_pow (by omega)]

/-! Evaluation of BitIndex::bit: the u32 cast reduces the index modulo
2 ^ 32; in range the bit is tested, out of range the result saturates. -/

lemma ubit_eq (w v n : Nat) :
    ubit w v n = if n % 2 ^ 32 < w then v.testBit (n % 2 ^ 32) else false := by
  unfold ubit castShift
  by_cases h : n % 2 ^ 32 < w
  · rw [if_pos h, if_pos h]
    rw [Bool.eq_iff_iff]
    simp [Nat.and_one_is_mod, Nat.shiftRight_eq_div_pow, Nat.testBit_to_div_mod]
  · rw [if_neg h, if_neg h]
    rfl

lemma sbit_eq (w v n : Nat) (hv : v < 2 ^ w) :
    sbit w v n
      = if n % 2 ^ 32 < w then v.testBit (n % 2 ^ 32) else sign_bit w v := by
  unfold sbit castShift sign_bit
  by_cases h : n % 2 ^ 32 < w
  · rw [if_pos h, if_pos h]
    rw [ashr_eq w v _ hv (by omega)]
    have heven : (2 ^ w - 2 ^ (w - n % 2 ^ 32)) % 2 = 0 := by
      have e1 : (2 : Nat) ^ w = 2 * 2 ^ (w - 1) := by
        rw [← pow_succ']
        congr 1
        omega
      have e2 : (2 : Nat) ^ (w - n % 2 ^ 32)
          = 2 * 2 ^ (w - n % 2 ^ 32 - 1) := by
        rw [← pow_succ']
        congr 1
        omega
      omega
    rw [Bool.eq_iff_iff]
    simp only [Nat.and_one_is_mod, Nat.testBit_to_div_mod,
      Nat.shiftRight_eq_div_pow, beq_iff_eq, decide_eq_true_eq]
    by_cases hs : 2 ^ (w - 1) ≤ v
    · rw [if_pos hs]
      omega
    · rw [if_neg hs]
      omega
  · rw [if_neg h, if_neg h]
    by_cases hs : toSigned w v < 0
    · simp [hs]
    · simp [hs]

lemma mask_to_le (w x m : Nat) : mask_to w x m ≤ x := Nat.and_le_left

lemma toSigned_neg_iff (w v : Nat) (hv : v < 2 ^ w) :
    toSigned w v < 0 ↔ 2 ^ (w - 1) ≤ v := by
  unfold toSigned
  by_cases h : v < 2 ^ (w - 1)
  · rw [if_pos h]
    omega
  · rw [if_neg h, two_pow_int]
    omega

/-! The claims. -/

/-- C1 counterexample. The claim asserts that every public operation
returns a defined result and never panics for arbitrary ranges,
explicitly including reversed bounds. But BitIndex::bits on the u8 value
90 with the reversed bounded range 5..2 computes the span `*ee - *si`
as 2 - 5 in usize, which overflows: the subtraction panics under
overflow checks instead of producing a defined result (none in the
model). -/
theorem C1_cex : ubits 8 90 (Bound.incl 5) (Bound.excl 2) = none := by decide

/-- C1 amended: bit, mask, mask_to, sign_bit and sign_extend are total
and return in-range w-bit results for every input; bits returns a
defined in-range result whenever the usize bound arithmetic of the range
resolution succeeds (no span-subtraction underflow, no +1 overflow),
which excludes only reversed or overflowing bounds. -/
theorem C1_total (w v size b s : Nat) (mo : Option Nat) (lo hi : Bound)
    (hv : v < 2 ^ w)
    (hm : maskOf lo hi = some mo) (hs : shiftOf lo = some s) :
    (∃ r, ubits w v lo hi = some r ∧ r < 2 ^ w) ∧
    (∃ r, sbits w v lo hi = some r ∧ r < 2 ^ w) ∧
    mask w size < 2 ^ w ∧ mask_to w v size < 2 ^ w ∧
    sign_extend w v b < 2 ^ w := by
  have hush : ushr_sat w v s < 2 ^ w := by
    unfold ushr_sat
    split
    · exact lt_of_le_of_lt
        (by rw [Nat.shiftRight_eq_div_pow]; exact Nat.div_le_self _ _) hv
    · positivity
  have hssh : sshr_sat w v s < 2 ^ w := by
    have h2 := Nat.two_pow_pos w
    unfold sshr_sat
    split
    · exact ashr_lt _ _ _
    split
    · omega
    · positivity
  refine ⟨?_, ?_, mask_lt w size, lt_of_le_of_lt (mask_to_le w v size) hv, ?_⟩
  · unfold ubits
    rw [hm, hs]
    cases mo with
    | some m2 => exact ⟨_, rfl, lt_of_le_of_lt (mask_to_le w _ m2) hush⟩
    | none => exact ⟨_, rfl, hush⟩
  · unfold sbits
    rw [hm, hs]
    cases mo with
    | some m2 => exact ⟨_, rfl, lt_of_le_of_lt (mask_to_le w _ m2) hssh⟩
    | none => exact ⟨_, rfl, hssh⟩
  · unfold sign_extend
    split
    · positivity
    · exact ashr_lt _ _ _

/-- Witness for C1_total at u8 value 90 with the full unbounded range. -/
theorem C1_total_witness :
    (∃ r, ubits 8 90 Bound.unb Bound.unb = some r ∧ r < 2 ^ 8) ∧
    (∃ r, sbits 8 90 Bound.unb Bound.unb = some r ∧ r < 2 ^ 8) ∧
    mask 8 3 < 2 ^ 8 ∧ mask_to 8 90 3 < 2 ^ 8 ∧ sign_extend 8 90 4 < 2 ^ 8 :=
  C1_total 8 90 3 4 0 none Bound.unb Bound.unb (by decide) (by decide)
    (by decide)

/-- C2 counterexample. The claim describes sign_extend(v, bits) as
keeping bits 0..bits-1 and replicating bit (bits - 1), equivalently
shifting left then arithmetically right by (width - bits); at w = 8,
v = 1, bits = 7 that formula (specSignExtend, written from the spec
wording) gives 1, but the code shifts by `bits` itself and gives
pattern 255, so the claim is false on the code. -/
theorem C2_cex :
    specSignExtend 8 1 7 = 1 ∧ sign_extend 8 1 7 = 255 ∧
      sign_extend 8 1 7 ≠ specSignExtend 8 1 7 := by decide

/-- C2 amended: for 0 < bits < width, sign_extend(v, bits) fills the top
`bits` positions from the bit below them: it treats bit
(width - bits - 1) as the sign bit, replicates it upward, and leaves
bits 0..width-bits-1 unchanged (equivalently, it shifts left by bits
and then arithmetically right by bits, reinterpreting as signed). -/
theorem C2_bit_semantics (w v bits i : Nat) (_h0 : 0 < bits) (hb : bits < w)
    (hi : i < w) :
    (sign_extend w v bits).testBit i =
      if i < w - bits then v.testBit i else v.testBit (w - bits - 1) :=
  sign_extend_testBit w v bits i hb hi

/-- Witness for C2_bit_semantics: bit 6 of sign_extend 8 10 4 repeats
bit 3 of the value 10. -/
theorem C2_bit_semantics_witness :
    (sign_extend 8 10 4).testBit 6 =
      if 6 < 8 - 4 then (10 : Nat).testBit 6 else (10 : Nat).testBit (8 - 4 - 1) :=
  C2_bit_semantics 8 10 4 6 (by decide) (by decide) (by decide)

/-- C3 counterexample. The claim asserts that a bounded range with
resolved start at or beyond the width yields 0 or -1 for signed types;
but i8 value -90 (pattern 166) with range 8..12 yields 15 (the -1
fallback of the saturated shift is masked to the 4-bit span), which is
neither 0 nor the pattern 255 of -1. -/
theorem C3_cex :
    ¬ (sbits 8 166 (Bound.incl 8) (Bound.excl 12) = some 0 ∨
        sbits 8 166 (Bound.incl 8) (Bound.excl 12) = some 255) := by decide

/-- C3 amended: for a bounded range whose span arithmetic succeeds and
whose resolved start s satisfies width <= s < 2 ^ 32 (so the u32 cast
keeps it out of range), bits yields 0 for unsigned types; for signed
types it yields 0 when the sign bit is clear and mask(span) — the
all-ones fallback masked to the resolved span, which equals -1 exactly
when the span reaches the width — when the sign bit is set. -/
theorem C3_out_of_range (w v s mv : Nat) (lo hi : Bound)
    (hv : v < 2 ^ w)
    (hs : shiftOf lo = some s) (hm : maskOf lo hi = some (some mv))
    (hge : w ≤ s) (hcast : s < 2 ^ 32) :
    ubits w v lo hi = some 0 ∧
    sbits w v lo hi = some (if 2 ^ (w - 1) ≤ v then mask w mv else 0) := by
  have hcs : castShift s = s := Nat.mod_eq_of_lt hcast
  have hns : ¬ castShift s < w := by
    rw [hcs]
    omega
  constructor
  · have e : ubits w v lo hi = some (mask_to w (ushr_sat w v s) mv) := by
      unfold ubits
      rw [hm, hs]
    rw [e]
    unfold ushr_sat
    rw [if_neg hns]
    unfold mask_to
    rw [Nat.zero_and]
  · have e : sbits w v lo hi = some (mask_to w (sshr_sat w v s) mv) := by
      unfold sbits
      rw [hm, hs]
    rw [e]
    unfold sshr_sat
    rw [if_neg hns]
    by_cases hsgn : 2 ^ (w - 1) ≤ v
    · rw [if_pos ((toSigned_neg_iff w v hv).mpr hsgn), if_pos hsgn,
        mask_to_all_ones]
    · rw [if_neg (fun hh => hsgn ((toSigned_neg_iff w v hv).mp hh)),
        if_neg hsgn]
      unfold mask_to
      rw [Nat.zero_and]

/-- Witness for C3_out_of_range at i8 pattern 166 (-90) and u8 value
166 with the range 8..16: the unsigned result is 0 and the signed
result is mask 8 8 = 255 (-1). -/
theorem C3_out_of_range_witness :
    ubits 8 166 (Bound.incl 8) (Bound.excl 16) = some 0 ∧
    sbits 8 166 (Bound.incl 8) (Bound.excl 16) =
      some (if 2 ^ (8 - 1) ≤ 166 then mask 8 8 else 0) :=
  C3_out_of_range 8 166 8 8 (Bound.incl 8) (Bound.excl 16) (by decide)
    (by decide) (by decide) (by decide) (by decide)

/-- C4 counterexample. The claim asserts bit(v, n) is false for every
unsigned v once n reaches the width; but the index is cast to u32
before checked_shr, so on a 64-bit target u8 value 1 at index 2 ^ 32
tests bit 0 and returns true. -/
theorem C4_cex : ubit 8 1 (2 ^ 32) = true := by decide

/-- C4 amended: the index is reduced modulo 2 ^ 32 by the u32 cast;
writing m for the reduced index, bit(v, n) tests bit m of v when
m < width, and otherwise is false for unsigned types and equals
sign_bit(v) for signed types. For n < 2 ^ 32 this is the original
claim. -/
theorem C4_bit_indexing (w v n : Nat) (hv : v < 2 ^ w) :
    (n % 2 ^ 32 < w →
      ubit w v n = v.testBit (n % 2 ^ 32) ∧
      sbit w v n = v.testBit (n % 2 ^ 32)) ∧
    (w ≤ n % 2 ^ 32 →
      ubit w v n = false ∧ sbit w v n = sign_bit w v) := by
  constructor
  · intro h
    rw [ubit_eq, sbit_eq w v n hv, if_pos h, if_pos h]
    exact ⟨rfl, rfl⟩
  · intro h
    rw [ubit_eq, sbit_eq w v n hv, if_neg (by omega), if_neg (by omega)]
    exact ⟨rfl, rfl⟩

/-- Witness for C4_bit_indexing at w = 8, v = 90, n = 3. -/
theorem C4_bit_indexing_witness :
    (3 % 2 ^ 32 < 8 →
      ubit 8 90 3 = (90 : Nat).testBit (3 % 2 ^ 32) ∧
      sbit 8 90 3 = (90 : Nat).testBit (3 % 2 ^ 32)) ∧
    (8 ≤ 3 % 2 ^ 32 →
      ubit 8 90 3 = false ∧ sbit 8 90 3 = sign_bit 8 90) :=
  C4_bit_indexing 8 90 3 (by decide)

/-- C5: mask(0) is 0; for 0 < n < width, mask(n) has exactly the n low
bits set (it equals 2 ^ n - 1); and for n >= width it has all bits set
(its three branches never shift by an amount reaching the width). -/
theorem C5_mask_values (w n : Nat) (hw : 0 < w) :
    mask w 0 = 0 ∧ (0 < n → n < w → mask w n = 2 ^ n - 1) ∧
    (w ≤ n → mask w n = 2 ^ w - 1) :=
  ⟨mask_zero w, fun h0 hn => mask_eq_of_lt w n h0 hn,
    fun hn => mask_eq_of_ge w n hw hn⟩

/-- Witness for C5_mask_values at w = 8, n = 3. -/
theorem C5_mask_values_witness :
    mask 8 0 = 0 ∧ (0 < 3 → 3 < 8 → mask 8 3 = 2 ^ 3 - 1) ∧
      (8 ≤ 3 → mask 8 3 = 2 ^ 8 - 1) :=
  C5_mask_values 8 3 (by decide)

/-- C6: sign extension by at least the width gives 0, and extension by
exactly the width is not the identity (witnessed at u8 value 1). -/
theorem C6_boundary (w v b : Nat) (h : w ≤ b) :
    sign_extend w v b = 0 ∧ sign_extend 8 1 8 ≠ 1 := by
  constructor
  · unfold sign_extend
    rw [if_pos h]
  · decide

/-- Witness for C6_boundary at w = 8, v = 200, b = 9. -/
theorem C6_boundary_witness :
    sign_extend 8 200 9 = 0 ∧ sign_extend 8 1 8 ≠ 1 :=
  C6_boundary 8 200 9 (by decide)

/-- C7: the concrete u32 scenario: sign_extend(0x8000, 16) = 0xffff8000
and sign_extend(0x8000, 17) = 0. -/
theorem C7_concrete :
    sign_extend 32 0x8000 16 = 0xffff8000 ∧ sign_extend 32 0x8000 17 = 0 := by
  decide

/-- C8: bits with the full unbounded range is the identity, for the
unsigned and the signed instances alike. -/
theorem C8_full_range_identity (w v : Nat) (hw : 0 < w) (hv : v < 2 ^ w) :
    ubits w v Bound.unb Bound.unb = some v ∧
    sbits w v Bound.unb Bound.unb = some v := by
  have eu : ubits w v Bound.unb Bound.unb = some (ushr_sat w v 0) := rfl
  have es : sbits w v Bound.unb Bound.unb = some (sshr_sat w v 0) := rfl
  have hc : castShift 0 = 0 := Nat.zero_mod _
  constructor
  · rw [eu]
    unfold ushr_sat
    rw [hc, if_pos hw, Nat.shiftRight_zero]
  · rw [es]
    unfold sshr_sat
    rw [hc, if_pos hw, ashr_zero w v hv]

/-- Witness for C8_full_range_identity at u8 and i8 pattern 166. -/
theorem C8_full_range_identity_witness :
    ubits 8 166 Bound.unb Bound.unb = some 166 ∧
    sbits 8 166 Bound.unb Bound.unb = some 166 :=
  C8_full_range_identity 8 166 (by decide) (by decide)

/-- C9: mask_to is idempotent, for every width, value and size. -/
theorem C9_mask_to_idempotent (w v n : Nat) :
    mask_to w (mask_to w v n) n = mask_to w v n := by
  unfold mask_to
  rw [Nat.and_assoc, Nat.and_self]

/-- C10: sign extension from width 0 is the identity: the code takes
the non-boundary branch (0 < width) and shifts left then right by 0. -/
theorem C10_sign_extend_zero (w v : Nat) (hw : 0 < w) (hv : v < 2 ^ w) :
    sign_extend w v 0 = v := by
  unfold sign_extend
  rw [if_neg (by omega), Nat.shiftLeft_zero, Nat.mod_eq_of_lt hv,
    ashr_zero w v hv]

/-- Witness for C10_sign_extend_zero at i8 pattern 166. -/
theorem C10_sign_extend_zero_witness : sign_extend 8 166 0 = 166 :=
  C10_sign_extend_zero 8 166 (by decide) (by decide)

end Quark
